import Mathlib

/-!
# Verification of the Six-Degrees semantic-graph core

Shallow embedding of `backend/app/semantic_graph.py`, `word_database.py`,
`game_service.py` and the hint route of `routes.py`.

Modelling conventions:
* Words are `String`; `word.lower().strip()` is `normalize`.
* Embedding vectors are `List ℚ`; the embedding provider is a parameter
  `pr : String → List ℚ` (deterministic per word, as the spec's
  EmbeddingProvider contract states).  numpy dot products become `dot`.
* Python's similarity cache is semantically transparent (embeddings are
  immutable and the dot product is deterministic), so it is not part of
  the state.
* Python dictionaries/sets are association lists / lists with membership
  semantics; the adjacency `graph : Dict[str, Set[str]]` is the edge list
  `edges`, where `(a, b) ∈ edges` means `b ∈ graph[a]`.
* Inner calls that Python makes with already-normalized strings
  (`add_word(word_lower)`, `get_similarity(word1_lower, ...)`) are modelled
  by `_norm` variants taking the normalized string directly; the public
  wrappers normalize exactly once, mirroring the idempotence of
  `lower().strip()` on already-normalized strings.
* The BFS `while queue` loop is modelled with explicit fuel
  `g.nodes.length + 1`, which is proved sufficient (the loop's measure,
  unvisited nodes + queue length, strictly decreases).
-/

namespace SixDeg

/-- Drop leading and trailing whitespace (`str.strip()`), at the level of
the character list so that it evaluates by kernel reduction. -/
def strip_list (l : List Char) : List Char :=
  ((l.dropWhile Char.isWhitespace).reverse.dropWhile Char.isWhitespace).reverse

/-- `word.lower()` (character-wise lowercasing). -/
def to_lower (w : String) : String := String.mk (w.data.map Char.toLower)

/-- `word.lower().strip()` -/
def normalize (w : String) : String := String.mk (strip_list ((to_lower w).data))

/-- Embedding vectors. -/
abbrev Vec := List ℚ

/-- `np.dot` on embedding vectors. -/
def dot : Vec → Vec → ℚ
  | [], _ => 0
  | _, [] => 0
  | x :: xs, y :: ys => x * y + dot xs ys

section BFSGraph

/-!
## The graph seen by `bfs_path`

`bfs_path` only reads the node set (`word_embeddings.keys()`) and the
adjacency (`get_neighbors`); during the search every frontier word is
already stored, so `get_neighbors` never mutates.  We model that read-only
view: a finite node list and an adjacency assignment, closed over the node
set (edges are only ever created between stored words).
-/

structure SGraph where
  nodes : List String
  adjList : List (String × List String)
  closed : ∀ p ∈ adjList, ∀ v ∈ p.2, v ∈ nodes
  nodes_nodup : nodes.Nodup

/-- `self.graph.get(word, set())`, iterated in some order. -/
def SGraph.adj (g : SGraph) (u : String) : List String :=
  match g.adjList.find? (fun p => p.1 = u) with
  | some p => p.2
  | none => []

theorem SGraph.adj_closed (g : SGraph) (u v : String) (hv : v ∈ g.adj u) : v ∈ g.nodes := by
  unfold SGraph.adj at hv
  cases hfind : g.adjList.find? (fun p => p.1 = u) with
  | none => rw [hfind] at hv; simp at hv
  | some p =>
    rw [hfind] at hv
    exact g.closed p (List.mem_of_find?_eq_some hfind) v hv

/-- The inner `for neighbor in neighbors` loop of `bfs_path`, in the case
where no neighbor equals the target: unvisited neighbors are marked
visited and appended (FIFO) with their extended paths. -/
def step_neighbors (path : List String) :
    List String → List String → List (String × List String) →
    List String × List (String × List String)
  | [], visited, queue => (visited, queue)
  | n :: ns, visited, queue =>
    if n ∈ visited then step_neighbors path ns visited queue
    else step_neighbors path ns (n :: visited) (queue ++ [(n, path ++ [n])])

theorem step_neighbors_visited_mono (path : List String) :
    ∀ ns visited queue x, x ∈ visited → x ∈ (step_neighbors path ns visited queue).1 := by
  intro ns
  induction ns with
  | nil => intro visited queue x hx; simpa [step_neighbors] using hx
  | cons n ns ih =>
    intro visited queue x hx
    simp only [step_neighbors]
    by_cases hn : n ∈ visited
    · simpa [hn] using ih visited queue x hx
    · simpa [hn] using ih (n :: visited) (queue ++ [(n, path ++ [n])]) x (List.mem_cons_of_mem _ hx)

theorem step_neighbors_visited_sub (path : List String) :
    ∀ ns visited queue x, x ∈ (step_neighbors path ns visited queue).1 →
      x ∈ visited ∨ x ∈ ns := by
  intro ns
  induction ns with
  | nil => intro visited queue x hx; simp [step_neighbors] at hx; exact Or.inl hx
  | cons n ns ih =>
    intro visited queue x hx
    simp only [step_neighbors] at hx
    by_cases hn : n ∈ visited
    · rw [if_pos hn] at hx
      rcases ih visited queue x hx with h | h
      · exact Or.inl h
      · exact Or.inr (List.mem_cons_of_mem _ h)
    · rw [if_neg hn] at hx
      rcases ih (n :: visited) (queue ++ [(n, path ++ [n])]) x hx with h | h
      · rcases List.mem_cons.mp h with h | h
        · exact Or.inr (h ▸ List.mem_cons_self n ns)
        · exact Or.inl h
      · exact Or.inr (List.mem_cons_of_mem _ h)

theorem step_neighbors_ns_visited (path : List String) :
    ∀ ns visited queue n, n ∈ ns → n ∈ (step_neighbors path ns visited queue).1 := by
  intro ns
  induction ns with
  | nil => intro visited queue n hn; simp at hn
  | cons m ns ih =>
    intro visited queue n hn
    simp only [step_neighbors]
    rcases List.mem_cons.mp hn with h | h
    · subst h
      by_cases hm : n ∈ visited
      · rw [if_pos hm]; exact step_neighbors_visited_mono path ns visited queue n hm
      · rw [if_neg hm]
        exact step_neighbors_visited_mono path ns _ _ n (List.mem_cons_self n visited)
    · by_cases hm : m ∈ visited
      · rw [if_pos hm]; exact ih visited queue n h
      · rw [if_neg hm]; exact ih _ _ n h

theorem step_neighbors_queue_shape (path : List String) :
    ∀ ns visited queue, ∃ new,
      (step_neighbors path ns visited queue).2 = queue ++ new ∧
      ∀ e ∈ new, ∃ n, e = (n, path ++ [n]) ∧ n ∈ ns ∧ ¬ n ∈ visited := by
  intro ns
  induction ns with
  | nil => intro visited queue; exact ⟨[], by simp [step_neighbors], by simp⟩
  | cons n ns ih =>
    intro visited queue
    simp only [step_neighbors]
    by_cases hn : n ∈ visited
    · rw [if_pos hn]
      obtain ⟨new, hq, hprop⟩ := ih visited queue
      exact ⟨new, hq, fun e he => by
        obtain ⟨m, hm, hmns, hmv⟩ := hprop e he
        exact ⟨m, hm, List.mem_cons_of_mem _ hmns, hmv⟩⟩
    · rw [if_neg hn]
      obtain ⟨new, hq, hprop⟩ := ih (n :: visited) (queue ++ [(n, path ++ [n])])
      refine ⟨(n, path ++ [n]) :: new, by simpa using hq, ?_⟩
      intro e he
      rcases List.mem_cons.mp he with h | h
      · exact ⟨n, h, List.mem_cons_self n ns, hn⟩
      · obtain ⟨m, hm, hmns, hmv⟩ := hprop e h
        refine ⟨m, hm, List.mem_cons_of_mem _ hmns, fun hc => hmv (List.mem_cons_of_mem _ hc)⟩

theorem step_neighbors_entry_track (path : List String) (V0 : List String) :
    ∀ ns visited queue,
      (∀ x ∈ visited, x ∈ V0 ∨ ∃ e ∈ queue, e.1 = x) →
      ∀ x ∈ (step_neighbors path ns visited queue).1,
        x ∈ V0 ∨ ∃ e ∈ (step_neighbors path ns visited queue).2, e.1 = x := by
  intro ns
  induction ns with
  | nil => intro visited queue hinv x hx; simpa [step_neighbors] using hinv x (by simpa [step_neighbors] using hx)
  | cons n ns ih =>
    intro visited queue hinv x hx
    simp only [step_neighbors] at hx ⊢
    by_cases hn : n ∈ visited
    · rw [if_pos hn] at hx ⊢
      exact ih visited queue hinv x hx
    · rw [if_neg hn] at hx ⊢
      refine ih (n :: visited) (queue ++ [(n, path ++ [n])]) ?_ x hx
      intro y hy
      rcases List.mem_cons.mp hy with h | h
      · subst h
        exact Or.inr ⟨(y, path ++ [y]), by simp⟩
      · rcases hinv y h with h2 | ⟨e, he, hee⟩
        · exact Or.inl h2
        · exact Or.inr ⟨e, List.mem_append_left _ he, hee⟩

/-- Count of not-yet-visited nodes. -/
def unvisited_count (nodes visited : List String) : Nat :=
  (nodes.filter (fun w => ¬ w ∈ visited)).length

theorem filter_notmem_mono (l : List String) (v : List String) (n : String) :
    (l.filter (fun w => ¬ w ∈ n :: v)).length ≤ (l.filter (fun w => ¬ w ∈ v)).length := by
  induction l with
  | nil => simp
  | cons a l ih =>
    by_cases h1 : a ∈ n :: v
    · rw [List.filter_cons_of_neg
        (by simp; exact fun hne => (List.mem_cons.mp h1).resolve_left hne)]
      by_cases h2 : a ∈ v
      · rw [List.filter_cons_of_neg (by simpa using h2)]
        exact ih
      · rw [List.filter_cons_of_pos (by simpa using h2)]
        simp only [List.length_cons]
        omega
    · have h2 : ¬ a ∈ v := fun hc => h1 (List.mem_cons_of_mem _ hc)
      rw [List.filter_cons_of_pos (by simpa using h1),
        List.filter_cons_of_pos (by simpa using h2)]
      simp only [List.length_cons]
      omega

theorem filter_notmem_drop (l : List String) (v : List String) (n : String)
    (hn : n ∈ l) (hnv : ¬ n ∈ v) :
    (l.filter (fun w => ¬ w ∈ n :: v)).length + 1 ≤ (l.filter (fun w => ¬ w ∈ v)).length := by
  induction l with
  | nil => simp at hn
  | cons a l ih =>
    by_cases ha : a = n
    · subst ha
      have h1 : a ∈ a :: v := List.mem_cons_self a v
      rw [List.filter_cons_of_neg (by simp),
        List.filter_cons_of_pos (by simpa using hnv)]
      simp only [List.length_cons]
      have := filter_notmem_mono l v a
      omega
    · rcases List.mem_cons.mp hn with h | h
      · exact absurd h.symm ha
      · by_cases h2 : a ∈ v
        · have h1 : a ∈ n :: v := List.mem_cons_of_mem _ h2
          rw [List.filter_cons_of_neg
            (by simp; exact fun hne => (List.mem_cons.mp h1).resolve_left hne),
            List.filter_cons_of_neg (by simpa using h2)]
          exact ih h
        · have h1 : ¬ a ∈ n :: v := by
            intro hc
            rcases List.mem_cons.mp hc with hc | hc
            · exact ha hc
            · exact h2 hc
          rw [List.filter_cons_of_pos (by simpa using h1),
            List.filter_cons_of_pos (by simpa using h2)]
          simp only [List.length_cons]
          have := ih h
          omega

/-- The loop measure: unvisited nodes plus queue length. -/
def bfs_measure (nodes : List String) (queue : List (String × List String))
    (visited : List String) : Nat :=
  unvisited_count nodes visited + queue.length

theorem step_neighbors_measure (nodes path : List String) :
    ∀ ns visited queue, (∀ n ∈ ns, n ∈ nodes) →
      bfs_measure nodes (step_neighbors path ns visited queue).2
          (step_neighbors path ns visited queue).1 ≤
        bfs_measure nodes queue visited := by
  intro ns
  induction ns with
  | nil => intro visited queue _; simp [step_neighbors, bfs_measure]
  | cons n ns ih =>
    intro visited queue hns
    simp only [step_neighbors]
    by_cases hn : n ∈ visited
    · rw [if_pos hn]
      exact ih visited queue (fun m hm => hns m (List.mem_cons_of_mem _ hm))
    · rw [if_neg hn]
      refine le_trans (ih (n :: visited) (queue ++ [(n, path ++ [n])])
        (fun m hm => hns m (List.mem_cons_of_mem _ hm))) ?_
      unfold bfs_measure unvisited_count
      have := filter_notmem_drop nodes visited n (hns n (List.mem_cons_self n ns)) hn
      simp only [List.length_append, List.length_cons, List.length_nil]
      omega

/-- The `while queue:` loop of `bfs_path`.  The fuel argument is an upper
bound on the loop measure; `bfs_path` supplies a provably sufficient value.
For each popped `(current, path)`: skip if `len(path) - 1 > max_steps`;
return `path + [neighbor]` on the first neighbor equal to the target
(the enqueueings preceding such a return are discarded with it);
otherwise mark-and-enqueue unvisited neighbors. -/
def bfs_loop (g : SGraph) (target : String) (maxSteps : Nat) :
    Nat → List (String × List String) → List String → Option (List String)
  | 0, _, _ => none
  | _ + 1, [], _ => none
  | fuel + 1, (current, path) :: queue, visited =>
    if path.length - 1 > maxSteps then
      bfs_loop g target maxSteps fuel queue visited
    else if target ∈ g.adj current then
      some (path ++ [target])
    else
      let r := step_neighbors path (g.adj current) visited queue
      bfs_loop g target maxSteps fuel r.2 r.1

/-- `SemanticGraph.bfs_path`, as a function of the (read-only) graph view:
normalize, return `[start]` if the endpoints coincide, else run the loop
from `deque([(start, [start])])` with `visited = {start}`. -/
def bfs_path (g : SGraph) (start_word target_word : String) (maxSteps : Nat) :
    Option (List String) :=
  let start := normalize start_word
  let target := normalize target_word
  if start = target then some [start]
  else bfs_loop g target maxSteps (g.nodes.length + 1) [(start, [start])] [start]

/-!
## Paths in the graph

`IsPath g a c p`: `p` is a walk in the adjacency of `g` beginning at `a`
and ending at `c` (a "path from a to c" in the spec's sense; `steps =
length - 1`).
-/

inductive IsPath (g : SGraph) : String → String → List String → Prop where
  | single (a : String) : IsPath g a a [a]
  | cons {a b c : String} {p : List String} (hab : b ∈ g.adj a) (hp : IsPath g b c p) :
      IsPath g a c (a :: p)

theorem IsPath.length_pos {g : SGraph} {a c : String} {p : List String}
    (h : IsPath g a c p) : 1 ≤ p.length := by
  cases h <;> simp

theorem IsPath.mem_last {g : SGraph} {a c : String} {p : List String}
    (h : IsPath g a c p) : c ∈ p := by
  induction h with
  | single a => simp
  | cons hab hp ih => exact List.mem_cons_of_mem _ ih

theorem IsPath.mem_head {g : SGraph} {a c : String} {p : List String}
    (h : IsPath g a c p) : a ∈ p := by
  cases h <;> simp

theorem IsPath.snoc {g : SGraph} {a b c : String} {p : List String}
    (h : IsPath g a b p) (hbc : c ∈ g.adj b) : IsPath g a c (p ++ [c]) := by
  induction h with
  | single a => exact IsPath.cons hbc (IsPath.single c)
  | cons hab hp ih => exact IsPath.cons hab (ih hbc)

theorem IsPath.elim_head {g : SGraph} {a c : String} {q : List String}
    (h : IsPath g a c q) :
    (a = c ∧ q = [a]) ∨ ∃ b p, q = a :: p ∧ b ∈ g.adj a ∧ IsPath g b c p := by
  cases h with
  | single a => exact Or.inl ⟨rfl, rfl⟩
  | cons hab hp => exact Or.inr ⟨_, _, rfl, hab, hp⟩

theorem IsPath.two_le_length {g : SGraph} {a c : String} {p : List String}
    (h : IsPath g a c p) (hne : a ≠ c) : 2 ≤ p.length := by
  rcases h.elim_head with ⟨h1, _⟩ | ⟨b, q, rfl, _, hq⟩
  · exact absurd h1 hne
  · have := hq.length_pos
    simp only [List.length_cons]
    omega


/-!
## Soundness of the BFS loop

Every queue entry `(u, p)` carries an actual walk `p` from the start word
to `u`, without repetitions, never touching the target, and contained in
the visited set.
-/

def GoodEntry (g : SGraph) (start target : String) (visited : List String)
    (e : String × List String) : Prop :=
  IsPath g start e.1 e.2 ∧ e.2.Nodup ∧ ¬ target ∈ e.2 ∧ ∀ x ∈ e.2, x ∈ visited

theorem GoodEntry.mono {g : SGraph} {start target : String} {visited visited2 : List String}
    {e : String × List String} (h : GoodEntry g start target visited e)
    (hv : ∀ x ∈ visited, x ∈ visited2) : GoodEntry g start target visited2 e :=
  ⟨h.1, h.2.1, h.2.2.1, fun x hx => hv x (h.2.2.2 x hx)⟩

theorem step_entries_good (g : SGraph) (start target : String) (u : String)
    (p : List String) (visited : List String) (rest : List (String × List String))
    (hu : IsPath g start u p) (hnodup : p.Nodup) (htp : ¬ target ∈ p)
    (hpv : ∀ x ∈ p, x ∈ visited)
    (hrest : ∀ e ∈ rest, GoodEntry g start target visited e)
    (hnt : ¬ target ∈ g.adj u) :
    ∀ e ∈ (step_neighbors p (g.adj u) visited rest).2,
      GoodEntry g start target (step_neighbors p (g.adj u) visited rest).1 e := by
  intro e he
  obtain ⟨new, hq, hprop⟩ := step_neighbors_queue_shape p (g.adj u) visited rest
  have hmono : ∀ x ∈ visited, x ∈ (step_neighbors p (g.adj u) visited rest).1 :=
    fun x hx => step_neighbors_visited_mono p (g.adj u) visited rest x hx
  rw [hq] at he
  rcases List.mem_append.mp he with h | h
  · exact (hrest e h).mono hmono
  · obtain ⟨n, rfl, hn_adj, hn_vis⟩ := hprop e h
    refine ⟨hu.snoc hn_adj, ?_, ?_, ?_⟩
    · refine List.Nodup.append hnodup (List.nodup_singleton n) ?_
      intro x hx hxn
      rcases List.mem_singleton.mp hxn with rfl
      exact hn_vis (hpv x hx)
    · intro hc
      rcases List.mem_append.mp hc with hc | hc
      · exact htp hc
      · rcases List.mem_singleton.mp hc with rfl
        exact hnt hn_adj
    · intro x hx
      rcases List.mem_append.mp hx with hx | hx
      · exact hmono x (hpv x hx)
      · rcases List.mem_singleton.mp hx with rfl
        exact step_neighbors_ns_visited p (g.adj u) visited rest x hn_adj

theorem bfs_loop_sound (g : SGraph) (start target : String) (maxSteps : Nat) :
    ∀ fuel queue visited,
      (∀ e ∈ queue, GoodEntry g start target visited e) →
      ∀ r, bfs_loop g target maxSteps fuel queue visited = some r →
        IsPath g start target r ∧ r.Nodup ∧ r.length - 1 ≤ maxSteps + 1 := by
  intro fuel
  induction fuel with
  | zero => intro queue visited _ r hr; simp [bfs_loop] at hr
  | succ fuel ih =>
    intro queue visited hgood r hr
    match queue with
    | [] => simp [bfs_loop] at hr
    | (u, p) :: rest =>
      simp only [bfs_loop] at hr
      by_cases hskip : p.length - 1 > maxSteps
      · rw [if_pos hskip] at hr
        exact ih rest visited (fun e he => hgood e (List.mem_cons_of_mem _ he)) r hr
      · rw [if_neg hskip] at hr
        have hfront : GoodEntry g start target visited (u, p) :=
          hgood (u, p) (List.mem_cons_self _ _)
        by_cases hfound : target ∈ g.adj u
        · rw [if_pos hfound] at hr
          have hr2 : p ++ [target] = r := (Option.some.injEq _ _).mp hr
          subst hr2
          refine ⟨hfront.1.snoc hfound, ?_, ?_⟩
          · refine List.Nodup.append hfront.2.1 (List.nodup_singleton target) ?_
            intro x hx hxt
            rcases List.mem_singleton.mp hxt with rfl
            exact hfront.2.2.1 hx
          · have h1 := hfront.1.length_pos
            simp only [List.length_append, List.length_singleton]
            omega
        · rw [if_neg hfound] at hr
          exact ih _ _
            (step_entries_good g start target u p visited rest hfront.1 hfront.2.1
              hfront.2.2.1 hfront.2.2.2
              (fun e he => hgood e (List.mem_cons_of_mem _ he)) hfound)
            r hr

/-!
## Completeness / minimality of the BFS loop

The classical BFS invariant: queue entries are minimal-length walks, queue
lengths are sorted and spread by at most one, every visited word is either
still on the queue or fully processed (all neighbors visited, target not
among them), and the target is never visited.
-/

structure BfsInv (g : SGraph) (start target : String)
    (queue : List (String × List String)) (visited : List String) : Prop where
  entries : ∀ e ∈ queue, GoodEntry g start target visited e
  start_vis : start ∈ visited
  target_not_vis : ¬ target ∈ visited
  frontier : ∀ v ∈ visited,
    (∃ e ∈ queue, e.1 = v) ∨ (¬ target ∈ g.adj v ∧ ∀ w ∈ g.adj v, w ∈ visited)
  minimal : ∀ e ∈ queue, ∀ w, IsPath g start e.1 w → e.2.length ≤ w.length
  sorted : queue.Pairwise (fun e1 e2 => e1.2.length ≤ e2.2.length)
  spread : ∀ e1 ∈ queue, ∀ e2 ∈ queue, e1.2.length ≤ e2.2.length + 1

theorem BfsInv.entry_node_vis {g : SGraph} {start target : String}
    {queue : List (String × List String)} {visited : List String}
    (inv : BfsInv g start target queue visited) {e : String × List String}
    (he : e ∈ queue) : e.1 ∈ visited :=
  (inv.entries e he).2.2.2 e.1 (inv.entries e he).1.mem_last

/-- Walking a path whose head is visited either stays inside the visited
set or meets the node of some queue entry; in the latter case the path
splits at that node, with the prefix a path from the start. -/
theorem bfs_walk (g : SGraph) (start target : String)
    (queue : List (String × List String)) (visited : List String)
    (hcf : ∀ v ∈ visited,
      (∃ e ∈ queue, e.1 = v) ∨ (¬ target ∈ g.adj v ∧ ∀ w ∈ g.adj v, w ∈ visited)) :
    ∀ (q : List String) (v x : String), IsPath g v x q → v ∈ visited →
      ∀ (pv : List String), IsPath g start v pv →
      (∀ y ∈ q, y ∈ visited) ∨
        ∃ e ∈ queue, ∃ pu qu, IsPath g start e.1 pu ∧ IsPath g e.1 x qu ∧
          pu.length + qu.length = pv.length + q.length := by
  intro q v x hq
  induction hq with
  | single a =>
    intro hv pv _
    exact Or.inl (fun y hy => by rcases List.mem_singleton.mp hy with rfl; exact hv)
  | @cons a b c p hab hp ih =>
    intro hv pv hpv
    rcases hcf a hv with ⟨e, he, hev⟩ | ⟨_, hsub⟩
    · right
      refine ⟨e, he, pv, a :: p, ?_, ?_, rfl⟩
      · rw [hev]; exact hpv
      · rw [hev]; exact IsPath.cons hab hp
    · rcases ih (hsub b hab) (pv ++ [b]) (hpv.snoc hab) with hall | ⟨e, he, pu, qu, h1, h2, hlen⟩
      · left
        intro y hy
        rcases List.mem_cons.mp hy with rfl | hy
        · exact hv
        · exact hall y hy
      · right
        refine ⟨e, he, pu, qu, h1, h2, ?_⟩
        simp only [List.length_append, List.length_cons, List.length_nil] at hlen ⊢
        omega

/-- Any walk from start to target is at least one longer than some queue
entry (and hence than the shortest queue entry). -/
theorem bfs_cross (g : SGraph) (start target : String)
    (queue : List (String × List String)) (visited : List String)
    (inv : BfsInv g start target queue visited)
    (q : List String) (hq : IsPath g start target q) :
    ∃ e ∈ queue, e.2.length + 1 ≤ q.length := by
  rcases bfs_walk g start target queue visited inv.frontier q start target hq inv.start_vis
      [start] (IsPath.single start) with hall | ⟨e, he, pu, qu, hpu, hqu, hlen⟩
  · exact absurd (hall target hq.mem_last) inv.target_not_vis
  · have hmin := inv.minimal e he pu hpu
    have hev : e.1 ∈ visited := inv.entry_node_vis he
    have hne : e.1 ≠ target := fun hc => inv.target_not_vis (hc ▸ hev)
    have h2 := hqu.two_le_length hne
    refine ⟨e, he, ?_⟩
    simp only [List.length_singleton] at hlen
    omega

/-- Any walk from the start to an unvisited word is strictly longer than
the entry at the front of the queue. -/
theorem bfs_min_depth (g : SGraph) (start target : String)
    (u : String) (p : List String) (rest : List (String × List String))
    (visited : List String)
    (inv : BfsInv g start target ((u, p) :: rest) visited) :
    ∀ v, ¬ v ∈ visited → ∀ w, IsPath g start v w → p.length + 1 ≤ w.length := by
  intro v hv w hw
  rcases bfs_walk g start target ((u, p) :: rest) visited inv.frontier w start v hw
      inv.start_vis [start] (IsPath.single start) with hall | ⟨e, he, pu, qu, hpu, hqu, hlen⟩
  · exact absurd (hall v hw.mem_last) hv
  · have hmin := inv.minimal e he pu hpu
    have hev : e.1 ∈ visited := inv.entry_node_vis he
    have hne : e.1 ≠ v := fun hc => hv (hc ▸ hev)
    have h2 := hqu.two_le_length hne
    have hfront : p.length ≤ e.2.length := by
      rcases List.mem_cons.mp he with h | h
      · rw [h]
      · exact (List.pairwise_cons.mp inv.sorted).1 e h
    simp only [List.length_singleton] at hlen
    omega

theorem pairwise_const_len (k : Nat) :
    ∀ l : List (String × List String), (∀ e ∈ l, e.2.length = k) →
      l.Pairwise (fun e1 e2 => e1.2.length ≤ e2.2.length) := by
  intro l
  induction l with
  | nil => intro _; exact List.Pairwise.nil
  | cons a l ih =>
    intro h
    refine List.pairwise_cons.mpr ⟨?_, ih (fun e he => h e (List.mem_cons_of_mem _ he))⟩
    intro e he
    rw [h a (List.mem_cons_self _ _), h e (List.mem_cons_of_mem _ he)]

/-- The invariant is preserved by expanding the front entry when the
target is not among its neighbors. -/
theorem bfs_inv_step (g : SGraph) (start target : String)
    (u : String) (p : List String) (rest : List (String × List String))
    (visited : List String)
    (inv : BfsInv g start target ((u, p) :: rest) visited)
    (hnt : ¬ target ∈ g.adj u) :
    BfsInv g start target (step_neighbors p (g.adj u) visited rest).2
      (step_neighbors p (g.adj u) visited rest).1 := by
  have hfrontGood : GoodEntry g start target visited (u, p) :=
    inv.entries (u, p) (List.mem_cons_self _ _)
  have hrestGood : ∀ e ∈ rest, GoodEntry g start target visited e :=
    fun e he => inv.entries e (List.mem_cons_of_mem _ he)
  have hmono : ∀ x ∈ visited, x ∈ (step_neighbors p (g.adj u) visited rest).1 :=
    fun x hx => step_neighbors_visited_mono p (g.adj u) visited rest x hx
  obtain ⟨new, hq, hnew⟩ := step_neighbors_queue_shape p (g.adj u) visited rest
  have hrest_sub : ∀ e ∈ rest, e ∈ (step_neighbors p (g.adj u) visited rest).2 := by
    intro e he; rw [hq]; exact List.mem_append_left _ he
  have hrest_bounds : ∀ e ∈ rest, p.length ≤ e.2.length ∧ e.2.length ≤ p.length + 1 := by
    intro e he
    exact ⟨(List.pairwise_cons.mp inv.sorted).1 e he,
      inv.spread e (List.mem_cons_of_mem _ he) (u, p) (List.mem_cons_self _ _)⟩
  have hnew_len : ∀ e ∈ new, e.2.length = p.length + 1 := by
    intro e he
    obtain ⟨n, rfl, _, _⟩ := hnew e he
    simp
  have hbounds : ∀ e ∈ (step_neighbors p (g.adj u) visited rest).2,
      p.length ≤ e.2.length ∧ e.2.length ≤ p.length + 1 := by
    intro e he
    rw [hq] at he
    rcases List.mem_append.mp he with h | h
    · exact hrest_bounds e h
    · rw [hnew_len e h]; omega
  refine ⟨?_, ?_, ?_, ?_, ?_, ?_, ?_⟩
  · exact step_entries_good g start target u p visited rest hfrontGood.1 hfrontGood.2.1
      hfrontGood.2.2.1 hfrontGood.2.2.2 hrestGood hnt
  · exact hmono start inv.start_vis
  · intro hc
    rcases step_neighbors_visited_sub p (g.adj u) visited rest target hc with h | h
    · exact inv.target_not_vis h
    · exact hnt h
  · intro v hv2
    by_cases hv : v ∈ visited
    · rcases inv.frontier v hv with ⟨e, he, hev⟩ | ⟨hta, hsub⟩
      · rcases List.mem_cons.mp he with h | h
        · right
          have huv : u = v := by rw [h] at hev; exact hev
          subst huv
          exact ⟨hnt, fun w hw => step_neighbors_ns_visited p (g.adj u) visited rest w hw⟩
        · exact Or.inl ⟨e, hrest_sub e h, hev⟩
      · exact Or.inr ⟨hta, fun w hw => hmono w (hsub w hw)⟩
    · rcases step_neighbors_entry_track p visited (g.adj u) visited rest
          (fun x hx => Or.inl hx) v hv2 with h | h
      · exact absurd h hv
      · exact Or.inl h
  · intro e he w hw
    rw [hq] at he
    rcases List.mem_append.mp he with h | h
    · exact inv.minimal e (List.mem_cons_of_mem _ h) w hw
    · obtain ⟨n, rfl, hn_adj, hn_vis⟩ := hnew e h
      have := bfs_min_depth g start target u p rest visited inv n hn_vis w hw
      simp only [List.length_append, List.length_singleton]
      omega
  · rw [hq]
    refine List.pairwise_append.mpr ⟨(List.pairwise_cons.mp inv.sorted).2,
      pairwise_const_len (p.length + 1) new hnew_len, ?_⟩
    intro e1 h1 e2 h2
    rw [hnew_len e2 h2]
    exact (hrest_bounds e1 h1).2
  · intro e1 h1 e2 h2
    have b1 := hbounds e1 h1
    have b2 := hbounds e2 h2
    omega

/-- Completeness with minimality: if some walk from start to target has at
most `maxSteps + 1` steps, the loop succeeds and returns a result no
longer than that walk. -/
theorem bfs_loop_complete (g : SGraph) (start target : String) (maxSteps : Nat) :
    ∀ fuel queue visited,
      BfsInv g start target queue visited →
      bfs_measure g.nodes queue visited ≤ fuel →
      ∀ q, IsPath g start target q → q.length ≤ maxSteps + 2 →
      ∃ r, bfs_loop g target maxSteps fuel queue visited = some r ∧ r.length ≤ q.length := by
  intro fuel
  induction fuel with
  | zero =>
    intro queue visited inv hm q hq _
    exfalso
    obtain ⟨e, he, _⟩ := bfs_cross g start target queue visited inv q hq
    have h1 : 1 ≤ queue.length := List.length_pos.mpr (List.ne_nil_of_mem he)
    unfold bfs_measure at hm
    omega
  | succ fuel ih =>
    intro queue visited inv hm q hq hql
    match queue with
    | [] =>
      obtain ⟨e, he, _⟩ := bfs_cross g start target [] visited inv q hq
      exact absurd he (List.not_mem_nil e)
    | (u, p) :: rest =>
      by_cases hskip : p.length - 1 > maxSteps
      · exfalso
        obtain ⟨e, he, hlen⟩ := bfs_cross g start target _ visited inv q hq
        have hfront : p.length ≤ e.2.length := by
          rcases List.mem_cons.mp he with h | h
          · rw [h]
          · exact (List.pairwise_cons.mp inv.sorted).1 e h
        have hp1 : 1 ≤ p.length :=
          (inv.entries (u, p) (List.mem_cons_self _ _)).1.length_pos
        omega
      · by_cases hfound : target ∈ g.adj u
        · refine ⟨p ++ [target], ?_, ?_⟩
          · simp [bfs_loop, hskip, hfound]
          · obtain ⟨e, he, hlen⟩ := bfs_cross g start target _ visited inv q hq
            have hfront : p.length ≤ e.2.length := by
              rcases List.mem_cons.mp he with h | h
              · rw [h]
              · exact (List.pairwise_cons.mp inv.sorted).1 e h
            simp only [List.length_append, List.length_singleton]
            omega
        · have inv2 := bfs_inv_step g start target u p rest visited inv hfound
          have hmeas2 := step_neighbors_measure g.nodes p (g.adj u) visited rest
            (fun n hn => g.adj_closed u n hn)
          have hm2 : bfs_measure g.nodes (step_neighbors p (g.adj u) visited rest).2
              (step_neighbors p (g.adj u) visited rest).1 ≤ fuel := by
            unfold bfs_measure at hm hmeas2 ⊢
            simp only [List.length_cons] at hm
            omega
          obtain ⟨r, hrr, hrl⟩ := ih _ _ inv2 hm2 q hq hql
          refine ⟨r, ?_, hrl⟩
          simpa [bfs_loop, hskip, hfound] using hrr

/-! ## Top-level properties of `bfs_path` -/

theorem bfs_initial_inv (g : SGraph) (start target : String) (hne : start ≠ target) :
    BfsInv g start target [(start, [start])] [start] := by
  refine ⟨?_, ?_, ?_, ?_, ?_, ?_, ?_⟩
  · intro e he
    rcases List.mem_singleton.mp he with rfl
    refine ⟨IsPath.single start, List.nodup_singleton start, ?_, by simp⟩
    simpa using Ne.symm hne
  · simp
  · simpa using Ne.symm hne
  · intro v hv
    rcases List.mem_singleton.mp hv with rfl
    exact Or.inl ⟨(v, [v]), List.mem_singleton_self _, rfl⟩
  · intro e he w hw
    rcases List.mem_singleton.mp he with rfl
    simpa using hw.length_pos
  · exact List.pairwise_singleton _ _
  · intro e1 h1 e2 h2
    rcases List.mem_singleton.mp h1 with rfl
    rcases List.mem_singleton.mp h2 with rfl
    omega

theorem bfs_initial_good (g : SGraph) (start target : String) (hne : start ≠ target) :
    ∀ e ∈ [(start, [start])], GoodEntry g start target [start] e :=
  (bfs_initial_inv g start target hne).entries

theorem bfs_initial_measure (g : SGraph) (start : String) :
    bfs_measure g.nodes [(start, [start])] [start] ≤ g.nodes.length + 1 := by
  unfold bfs_measure unvisited_count
  have h := List.length_filter_le (fun w => ¬ w ∈ [start]) g.nodes
  simp only [List.length_cons, List.length_nil]
  omega

theorem bfs_path_eq_self (g : SGraph) (sw tw : String) (maxSteps : Nat)
    (heq : normalize sw = normalize tw) :
    bfs_path g sw tw maxSteps = some [normalize sw] := by
  simp [bfs_path, heq]

theorem bfs_path_eq_loop (g : SGraph) (sw tw : String) (maxSteps : Nat)
    (hne : ¬ normalize sw = normalize tw) :
    bfs_path g sw tw maxSteps =
      bfs_loop g (normalize tw) maxSteps (g.nodes.length + 1)
        [(normalize sw, [normalize sw])] [normalize sw] := by
  simp [bfs_path, hne]

/-- Soundness: a returned path is an actual walk from the normalized start
to the normalized target, has no repeated word, and has at most
`maxSteps + 1` steps. -/
theorem bfs_path_sound (g : SGraph) (sw tw : String) (maxSteps : Nat) :
    ∀ p, bfs_path g sw tw maxSteps = some p →
      IsPath g (normalize sw) (normalize tw) p ∧ p.Nodup ∧ p.length - 1 ≤ maxSteps + 1 := by
  intro p hp
  by_cases heq : normalize sw = normalize tw
  · rw [bfs_path_eq_self g sw tw maxSteps heq] at hp
    have hp2 : [normalize sw] = p := (Option.some.injEq _ _).mp hp
    subst hp2
    exact ⟨heq ▸ IsPath.single (normalize sw), List.nodup_singleton _, by simp⟩
  · rw [bfs_path_eq_loop g sw tw maxSteps heq] at hp
    exact bfs_loop_sound g (normalize sw) (normalize tw) maxSteps _ _ _
      (bfs_initial_good g (normalize sw) (normalize tw) heq) p hp

/-- Minimality: a returned path is no longer than any walk between the
normalized endpoints. -/
theorem bfs_path_min (g : SGraph) (sw tw : String) (maxSteps : Nat) :
    ∀ p, bfs_path g sw tw maxSteps = some p →
      ∀ q, IsPath g (normalize sw) (normalize tw) q → p.length ≤ q.length := by
  intro p hp q hq
  by_cases heq : normalize sw = normalize tw
  · rw [bfs_path_eq_self g sw tw maxSteps heq] at hp
    have hp2 : [normalize sw] = p := (Option.some.injEq _ _).mp hp
    subst hp2
    simpa using hq.length_pos
  · by_cases hql : q.length ≤ maxSteps + 2
    · obtain ⟨r, hr, hrl⟩ := bfs_loop_complete g (normalize sw) (normalize tw) maxSteps
        (g.nodes.length + 1) [(normalize sw, [normalize sw])] [normalize sw]
        (bfs_initial_inv g (normalize sw) (normalize tw) heq)
        (bfs_initial_measure g (normalize sw)) q hq hql
      rw [bfs_path_eq_loop g sw tw maxSteps heq, hr] at hp
      have hp2 : r = p := (Option.some.injEq _ _).mp hp
      subst hp2
      exact hrl
    · have hs := bfs_path_sound g sw tw maxSteps p hp
      have := hs.2.2
      omega

/-- A graph with no edges at all. -/
theorem no_adj_no_path (g : SGraph) (a c : String) (q : List String)
    (hg : g.adjList = []) (hq : IsPath g a c q) : a = c := by
  rcases hq.elim_head with ⟨h, _⟩ | ⟨b, p, _, hab, _⟩
  · exact h
  · rw [SGraph.adj, hg] at hab
    simp at hab

/-- Concrete chain graph a - b - c. -/
def chainG : SGraph where
  nodes := ["a", "b", "c"]
  adjList := [("a", ["b"]), ("b", ["a", "c"]), ("c", ["b"])]
  closed := by decide
  nodes_nodup := by decide

/-- Concrete graph with two isolated nodes. -/
def isolatedG : SGraph where
  nodes := ["a", "z"]
  adjList := []
  closed := by decide
  nodes_nodup := by decide

/-- Claim C1, counterexample: in the chain graph a - b - c with
`maxSteps = 1`, `bfs_path` returns the two-step path [a, b, c], whose
steps exceed `maxSteps`; the same run shows a path is returned although
the target is unreachable within `maxSteps` steps. -/
theorem bfs_path_exceeds_max_steps :
    bfs_path chainG "a" "c" 1 = some ["a", "b", "c"] ∧
    ¬ ((["a", "b", "c"] : List String).length - 1 ≤ 1) := by decide

/-- Claim C1 (amended): any path returned by `bfs_path` is a walk from the
normalized start to the normalized target with at most `maxSteps + 1`
steps (not `maxSteps`: a node at depth `maxSteps` is still expanded), and
`bfs_path` returns none whenever the target is unreachable from the start
within `maxSteps + 1` steps. -/
theorem bfs_path_step_bound (g : SGraph) (sw tw : String) (maxSteps : Nat) :
    (∀ p, bfs_path g sw tw maxSteps = some p →
      IsPath g (normalize sw) (normalize tw) p ∧ p.length - 1 ≤ maxSteps + 1) ∧
    ((∀ q, IsPath g (normalize sw) (normalize tw) q → maxSteps + 1 < q.length - 1) →
      bfs_path g sw tw maxSteps = none) := by
  constructor
  · intro p hp
    have h := bfs_path_sound g sw tw maxSteps p hp
    exact ⟨h.1, h.2.2⟩
  · intro hunreach
    cases hres : bfs_path g sw tw maxSteps with
    | none => rfl
    | some p =>
      have h := bfs_path_sound g sw tw maxSteps p hres
      have h2 := hunreach p h.1
      have h3 := h.2.2
      omega

theorem bfs_path_step_bound_witness :
    (bfs_path chainG "a" "b" 3 = some ["a", "b"] ∧
      IsPath chainG (normalize "a") (normalize "b") ["a", "b"] ∧
      (["a", "b"] : List String).length - 1 ≤ 3 + 1) ∧
    bfs_path isolatedG "a" "z" 6 = none := by
  refine ⟨⟨by decide, ?_⟩, ?_⟩
  · exact (bfs_path_step_bound chainG "a" "b" 3).1 ["a", "b"] (by decide)
  · refine (bfs_path_step_bound isolatedG "a" "z" 6).2 ?_
    intro q hq
    exact absurd (no_adj_no_path isolatedG (normalize "a") (normalize "z") q rfl hq)
      (by decide)

/-- Claim C3: a returned path is length-minimal among all walks between
the normalized endpoints (BFS returns the first discovery, in
non-decreasing depth order), and `bfs_path a a maxSteps` returns the
single-word path `[normalize a]`. -/
theorem bfs_path_minimal_and_self :
    (∀ (g : SGraph) (sw tw : String) (maxSteps : Nat) (p : List String),
      bfs_path g sw tw maxSteps = some p →
      ∀ q, IsPath g (normalize sw) (normalize tw) q → p.length ≤ q.length) ∧
    (∀ (g : SGraph) (a : String) (maxSteps : Nat),
      bfs_path g a a maxSteps = some [normalize a]) := by
  constructor
  · intro g sw tw maxSteps p hp q hq
    exact bfs_path_min g sw tw maxSteps p hp q hq
  · intro g a maxSteps
    exact bfs_path_eq_self g a a maxSteps rfl

theorem bfs_path_minimal_and_self_witness :
    (bfs_path chainG "a" "c" 6 = some ["a", "b", "c"] ∧
      IsPath chainG (normalize "a") (normalize "c") ["a", "b", "c"] ∧
      (["a", "b", "c"] : List String).length ≤ (["a", "b", "c"] : List String).length) ∧
    bfs_path chainG "b" "b" 6 = some [normalize "b"] := by
  have hpath : IsPath chainG (normalize "a") (normalize "c") ["a", "b", "c"] := by
    have ha : normalize "a" = "a" := by decide
    have hc : normalize "c" = "c" := by decide
    rw [ha, hc]
    exact IsPath.cons (by decide) (IsPath.cons (by decide) (IsPath.single "c"))
  refine ⟨⟨by decide, hpath, ?_⟩, ?_⟩
  · exact bfs_path_minimal_and_self.1 chainG "a" "c" 6 ["a", "b", "c"] (by decide)
      ["a", "b", "c"] hpath
  · exact bfs_path_minimal_and_self.2 chainG "b" 6

/-- Claim C9: every path returned by `bfs_path` consists of pairwise
distinct words, for all inputs. -/
theorem bfs_path_nodup (g : SGraph) (sw tw : String) (maxSteps : Nat) :
    ∀ p, bfs_path g sw tw maxSteps = some p → p.Nodup := by
  intro p hp
  exact (bfs_path_sound g sw tw maxSteps p hp).2.1

theorem bfs_path_nodup_witness :
    bfs_path chainG "a" "c" 6 = some ["a", "b", "c"] ∧
      (["a", "b", "c"] : List String).Nodup :=
  ⟨by decide, bfs_path_nodup chainG "a" "c" 6 ["a", "b", "c"] (by decide)⟩

end BFSGraph

/-!
## The SemanticGraph state

`word_embeddings` is the association list `emb` (insertion order, unique
keys for reachable states); `graph : Dict[str, Set[str]]` is the edge list
`edges` under membership semantics ((a, b) registered means
`b ∈ graph[a]`); `similarity_threshold` is `threshold`.
-/

structure SemState where
  threshold : ℚ
  emb : List (String × Vec)
  edges : List (String × String)
deriving DecidableEq

/-- `word_embeddings.get(w)` -/
def SemState.find (s : SemState) (w : String) : Option Vec :=
  (s.emb.find? (fun p => p.1 = w)).map (fun p => p.2)

/-- `w in word_embeddings` -/
def SemState.known (s : SemState) (w : String) : Bool := (s.find w).isSome

/-- `word_embeddings[w]` (stored words only). -/
def SemState.findD (s : SemState) (w : String) : Vec := (s.find w).getD []

/-- `word_embeddings.keys()` -/
def SemState.keys (s : SemState) : List String := s.emb.map Prod.fst

/-- `_update_connections(new_word)`: connect the freshly stored word to
every other stored word whose similarity meets the threshold, with
symmetric edges. -/
def update_connections (s : SemState) (w : String) : SemState :=
  let newEmb := s.findD w
  let existing := s.keys.filter (fun u => ¬ u = w)
  let toConnect := existing.filter (fun u => s.threshold ≤ dot (s.findD u) newEmb)
  { s with edges := toConnect.foldl (fun es u => (w, u) :: (u, w) :: es) s.edges }

/-- The body of `add_word` after its own normalization; every internal
call site passes an already lower/stripped word. -/
def add_word_norm (pr : String → Vec) (s : SemState) (w : String) : SemState × Vec :=
  match s.find w with
  | some e => (s, e)
  | none =>
    let e := pr w
    let s1 : SemState := { s with emb := s.emb ++ [(w, e)] }
    (update_connections s1 w, e)

/-- `SemanticGraph.add_word`. -/
def add_word (pr : String → Vec) (s : SemState) (word : String) : SemState × Vec :=
  add_word_norm pr s (normalize word)

/-- `_batch_update_connections(new_words)` (the new words are already
stored).  Mirrors the two numpy blocks: new×existing for all pairs, and
new×new over index pairs (`i ≠ j` when there are no existing words,
`i < j` otherwise). -/
def batch_update_connections (s : SemState) (newWords : List String) : SemState :=
  if newWords.isEmpty then s
  else
    let existing := s.keys.filter (fun w => ¬ w ∈ newWords)
    let idx := List.range newWords.length
    let wordAt := fun i => newWords.getD i ""
    if existing.isEmpty then
      let edges2 := idx.foldl (fun es i => idx.foldl (fun es j =>
        if i ≠ j ∧ s.threshold ≤ dot (s.findD (wordAt i)) (s.findD (wordAt j)) then
          (wordAt j, wordAt i) :: (wordAt i, wordAt j) :: es
        else es) es) s.edges
      { s with edges := edges2 }
    else
      let edges1 := newWords.foldl (fun es w =>
        existing.foldl (fun es u =>
          if s.threshold ≤ dot (s.findD w) (s.findD u) then
            (u, w) :: (w, u) :: es
          else es) es) s.edges
      let edges2 := idx.foldl (fun es i => idx.foldl (fun es j =>
        if i < j ∧ s.threshold ≤ dot (s.findD (wordAt i)) (s.findD (wordAt j)) then
          (wordAt j, wordAt i) :: (wordAt i, wordAt j) :: es
        else es) es) edges1
      { s with edges := edges2 }

/-- The filtering loop at the start of `add_words`: keep normalized words
not yet known.  The membership test is against the pre-call state, so a
word occurring twice in the batch is kept twice. -/
def words_to_add (s : SemState) (words : List String) : List String :=
  words.foldl (fun acc word =>
    let w := normalize word
    if s.known w then acc else acc ++ [w]) []

/-- `SemanticGraph.add_words`. -/
def add_words (pr : String → Vec) (s : SemState) (words : List String) :
    SemState × List (String × Vec) :=
  let wta := words_to_add s words
  if wta.isEmpty then
    (s, words.map (fun word => (normalize word, s.findD (normalize word))))
  else
    let embs := wta.map pr
    let s1 : SemState := { s with emb := s.emb ++ wta.zip embs }
    (batch_update_connections s1 wta, wta.zip embs)

/-- `if not word_exists(w): add_word(w)` on a normalized word. -/
def ensure_word (pr : String → Vec) (s : SemState) (w : String) : SemState :=
  if s.known w then s else (add_word_norm pr s w).1

/-- `get_similarity` on normalized words (the order-independent cache is
elided: embeddings are immutable, so a cache hit equals recomputation). -/
def get_similarity_norm (pr : String → Vec) (s : SemState) (a b : String) :
    SemState × ℚ :=
  let s2 := ensure_word pr (ensure_word pr s a) b
  (s2, dot (s2.findD a) (s2.findD b))

/-- `are_connected` on normalized words. -/
def are_connected_norm (pr : String → Vec) (s : SemState) (a b : String) :
    SemState × Bool :=
  let r := get_similarity_norm pr s a b
  (r.1, decide (r.1.threshold ≤ r.2))

/-- Neighbors of `w` under the edge list: a Python set, so deduplicated;
restriction to stored words is vacuous for states built by the API. -/
def SemState.neighbors_of (s : SemState) (w : String) : List String :=
  ((s.edges.filter (fun e => e.1 = w ∧ e.2 ∈ s.keys.dedup)).map (fun e => e.2)).dedup

/-- The read-only graph view used by the BFS. -/
def SemState.to_sgraph (s : SemState) : SGraph where
  nodes := s.keys.dedup
  adjList := s.keys.dedup.map (fun w => (w, s.neighbors_of w))
  closed := by
    intro p hp v hv
    simp only [List.mem_map] at hp
    obtain ⟨w, _, rfl⟩ := hp
    unfold SemState.neighbors_of at hv
    rw [List.mem_dedup] at hv
    simp only [List.mem_map, List.mem_filter] at hv
    obtain ⟨e, ⟨_, hcond⟩, rfl⟩ := hv
    simp only [decide_eq_true_eq] at hcond
    exact hcond.2
  nodes_nodup := List.nodup_dedup _

/-- `SemanticGraph.bfs_path` at the state level: ensure both endpoints are
stored, then search the stored adjacency (during the loop every frontier
word is stored, so `get_neighbors` does not mutate). -/
def sem_bfs_path (pr : String → Vec) (s : SemState) (startWord targetWord : String)
    (maxSteps : Nat) : SemState × Option (List String) :=
  let st := normalize startWord
  let tg := normalize targetWord
  let s2 := ensure_word pr (ensure_word pr s st) tg
  (s2, bfs_path s2.to_sgraph startWord targetWord maxSteps)

/-- `WordDatabase.word_exists`; the stored catalog words are normalized on
load. -/
def db_word_exists (catalog : List String) (w : String) : Bool :=
  decide (normalize w ∈ catalog)

/-- `GameService.find_optimal_path`. -/
def find_optimal_path (pr : String → Vec) (catalog : List String) (s : SemState)
    (startWord targetWord : String) (maxSteps : Nat) :
    SemState × Option (List String) :=
  if ¬ db_word_exists catalog startWord then (s, none)
  else if ¬ db_word_exists catalog targetWord then (s, none)
  else
    let s2 := ensure_word pr (ensure_word pr s (normalize startWord)) (normalize targetWord)
    sem_bfs_path pr s2 startWord targetWord maxSteps

/-! ## Concrete provider and states for witnesses -/

/-- A provider assigning the unit vector [1] to every word. -/
def unit_prov : String → Vec := fun _ => [1]

/-- The empty graph state at threshold 2/5 (the production default 0.4). -/
def empty_state : SemState := { threshold := mkRat 2 5, emb := [], edges := [] }

/-- Claim C2 (code bug): `add_words` does not filter duplicate normalized
words from the batch (contrary to its own comment), so the batch
["cat", "cat"] runs `_batch_update_connections` with index pairs over two
copies of "cat" and similarity 1, creating the self-loop edge
(cat, cat); sequential `add_word` calls never create a self-loop (the
second call is a no-op and `_update_connections` excludes the word
itself), so the final graphs differ. -/
theorem add_words_duplicate_batch_self_loop :
    ("cat", "cat") ∈ (add_words unit_prov empty_state ["cat", "cat"]).1.edges ∧
    ¬ ("cat", "cat") ∈
      (add_word unit_prov (add_word unit_prov empty_state "cat").1 "cat").1.edges :=
  of_decide_eq_true (by with_unfolding_all rfl)

/-- Claim C8: if either endpoint is missing from the word catalog,
`find_optimal_path` returns none (the embedded function is total, so no
exception can escape). -/
theorem find_optimal_path_absent_none (pr : String → Vec) (catalog : List String)
    (s : SemState) (startWord targetWord : String) (maxSteps : Nat)
    (h : ¬ db_word_exists catalog startWord ∨ ¬ db_word_exists catalog targetWord) :
    (find_optimal_path pr catalog s startWord targetWord maxSteps).2 = none := by
  unfold find_optimal_path
  by_cases h1 : db_word_exists catalog startWord
  · rcases h with h | h
    · exact absurd h1 h
    · simp [h1, h]
  · simp [h1]

theorem find_optimal_path_absent_none_witness :
    (¬ db_word_exists ["dog"] "cat" ∨ ¬ db_word_exists ["dog"] "dog") ∧
    (find_optimal_path unit_prov ["dog"] empty_state "cat" "dog" 6).2 = none :=
  ⟨Or.inl (of_decide_eq_true (by with_unfolding_all rfl)),
    find_optimal_path_absent_none unit_prov ["dog"] empty_state "cat" "dog" 6
      (Or.inl (of_decide_eq_true (by with_unfolding_all rfl)))⟩

/-! ## The keys of the map returned by `add_words` (claim C7) -/

theorem words_to_add_foldl (s : SemState) :
    ∀ (words : List String) (acc : List String),
      words.foldl (fun acc word =>
        let w := normalize word
        if s.known w then acc else acc ++ [w]) acc =
      acc ++ (words.map normalize).filter (fun w => !(s.known w)) := by
  intro words
  induction words with
  | nil => intro acc; simp
  | cons a words ih =>
    intro acc
    simp only [List.foldl_cons, List.map_cons, List.filter_cons]
    by_cases h : s.known (normalize a)
    · simp only [h]
      simp only [if_true, Bool.not_true, Bool.false_eq_true, if_false]
      exact ih acc
    · simp only [h]
      simp only [Bool.not_eq_true] at h
      simp only [h, Bool.not_false, if_true, Bool.false_eq_true, if_false]
      rw [ih (acc ++ [normalize a])]
      simp

theorem words_to_add_eq (s : SemState) (words : List String) :
    words_to_add s words = (words.map normalize).filter (fun w => !(s.known w)) := by
  unfold words_to_add
  simpa using words_to_add_foldl s words []

/-- Claim C7 (amended): the map returned by `add_words` has an entry for a
normalized input word exactly when that word was not yet known — except
when every input word was already known, in which case it has an entry
for every normalized input word. -/
theorem add_words_keys (pr : String → Vec) (s : SemState) (words : List String)
    (w : String) :
    (w ∈ (add_words pr s words).2.map Prod.fst) ↔
      (w ∈ words.map normalize ∧
        (¬ s.known w ∨ ∀ u ∈ words.map normalize, s.known u)) := by
  unfold add_words
  by_cases hempty : (words_to_add s words).isEmpty
  · rw [if_pos hempty]
    have hall : ∀ u ∈ words.map normalize, s.known u := by
      intro u hu
      have h0 : words_to_add s words = [] := List.isEmpty_iff.mp hempty
      rw [words_to_add_eq] at h0
      have := List.filter_eq_nil_iff.mp h0 u hu
      simpa using this
    simp only [List.map_map]
    constructor
    · intro hw
      refine ⟨?_, Or.inr hall⟩
      simpa [Function.comp] using hw
    · intro hw
      simpa [Function.comp] using hw.1
  · rw [if_neg hempty]
    have hlen : (words_to_add s words).length ≤ ((words_to_add s words).map pr).length := by
      simp
    rw [List.map_fst_zip _ _ hlen]
    have hnotall : ¬ ∀ u ∈ words.map normalize, s.known u := by
      intro hall
      apply hempty
      rw [List.isEmpty_iff, words_to_add_eq]
      rw [List.filter_eq_nil_iff]
      intro u hu
      simp [hall u hu]
    rw [words_to_add_eq, List.mem_filter]
    constructor
    · intro hw
      exact ⟨hw.1, Or.inl (by simpa using hw.2)⟩
    · intro hw
      refine ⟨hw.1, ?_⟩
      rcases hw.2 with h | h
      · simpa using h
      · exact absurd h hnotall

/-- Claim C7, counterexample: with "cat" already known, the map returned
by addWords(["cat", "dog"]) has no entry for the input word "cat". -/
theorem add_words_drops_known_words :
    "cat" ∈ ["cat", "dog"] ∧
    ¬ "cat" ∈ ((add_words unit_prov (add_word unit_prov empty_state "cat").1
        ["cat", "dog"]).2.map Prod.fst) :=
  of_decide_eq_true (by with_unfolding_all rfl)

/-!
## Well-formed states

Every stored embedding equals the provider's vector for its key; this is
the invariant that makes the similarity returned by `get_similarity`
independent of the state it is computed in.
-/

def WFState (pr : String → Vec) (s : SemState) : Prop :=
  ∀ w v, s.find w = some v → v = pr w

theorem wf_empty_state (pr : String → Vec) : WFState pr empty_state := by
  intro w v h
  simp [SemState.find, empty_state] at h

theorem WFState.findD_eq {pr : String → Vec} {s : SemState} (hwf : WFState pr s)
    {w : String} (hk : s.known w = true) : s.findD w = pr w := by
  unfold SemState.known at hk
  unfold SemState.findD
  cases hfind : s.find w with
  | none => rw [hfind] at hk; simp at hk
  | some v => simp only [hfind, Option.getD_some]; exact hwf w v hfind

theorem update_connections_emb (s : SemState) (w : String) :
    (update_connections s w).emb = s.emb := rfl

theorem update_connections_threshold (s : SemState) (w : String) :
    (update_connections s w).threshold = s.threshold := rfl

theorem update_connections_find (s : SemState) (w u : String) :
    (update_connections s w).find u = s.find u := rfl

theorem add_word_norm_threshold (pr : String → Vec) (s : SemState) (w : String) :
    (add_word_norm pr s w).1.threshold = s.threshold := by
  unfold add_word_norm
  cases hfind : s.find w with
  | some v => rfl
  | none => rfl

theorem find_append_one (s : SemState) (w u : String) (e : Vec) :
    SemState.find { s with emb := s.emb ++ [(w, e)] } u =
      (s.find u).or (if u = w then some e else none) := by
  unfold SemState.find
  simp only [List.find?_append, List.find?_singleton]
  cases hfu : s.emb.find? (fun p => p.1 = u) with
  | some p => simp
  | none =>
    by_cases huw : u = w
    · subst huw
      simp
    · have : ¬ (decide ((w, e).1 = u) = true) := by
        simp
        exact fun h => huw h.symm
      simp [this, huw]

theorem add_word_norm_find (pr : String → Vec) (s : SemState) (w u : String) :
    (add_word_norm pr s w).1.find u = s.find u ∨
      ((add_word_norm pr s w).1.find u = some (pr w) ∧ u = w ∧ s.find w = none) := by
  unfold add_word_norm
  cases hfind : s.find w with
  | some v => exact Or.inl rfl
  | none =>
    simp only [update_connections_find, find_append_one]
    cases hfu : s.find u with
    | some p => simp [Option.or]
    | none =>
      by_cases huw : u = w
      · subst huw
        right
        simp [Option.or, hfind]
      · left
        simp [Option.or, huw]

theorem add_word_norm_wf (pr : String → Vec) (s : SemState) (w : String)
    (hwf : WFState pr s) : WFState pr (add_word_norm pr s w).1 := by
  intro u v hu
  rcases add_word_norm_find pr s w u with h | ⟨h, rfl, _⟩
  · exact hwf u v (h ▸ hu)
  · rw [h] at hu
    exact ((Option.some.injEq _ _).mp hu).symm

theorem add_word_norm_known_mono (pr : String → Vec) (s : SemState) (w u : String)
    (hu : s.known u = true) : (add_word_norm pr s w).1.known u = true := by
  unfold SemState.known at hu ⊢
  rcases add_word_norm_find pr s w u with h | ⟨h, _, _⟩ <;> rw [h]
  · exact hu
  · simp

theorem add_word_norm_known_self (pr : String → Vec) (s : SemState) (w : String) :
    (add_word_norm pr s w).1.known w = true := by
  unfold SemState.known
  rcases add_word_norm_find pr s w w with h | ⟨h, _, _⟩ <;> rw [h]
  · cases hfind : s.find w with
    | some v => simp
    | none =>
      unfold add_word_norm at h
      rw [hfind] at h
      simp only [update_connections_find, find_append_one, hfind] at h
      simp [Option.or] at h
  · simp

theorem ensure_word_wf (pr : String → Vec) (s : SemState) (w : String)
    (hwf : WFState pr s) : WFState pr (ensure_word pr s w) := by
  unfold ensure_word
  by_cases h : s.known w <;> simp [h]
  · exact hwf
  · exact add_word_norm_wf pr s w hwf

theorem ensure_word_threshold (pr : String → Vec) (s : SemState) (w : String) :
    (ensure_word pr s w).threshold = s.threshold := by
  unfold ensure_word
  by_cases h : s.known w <;> simp [h, add_word_norm_threshold]

theorem ensure_word_known_self (pr : String → Vec) (s : SemState) (w : String) :
    (ensure_word pr s w).known w = true := by
  unfold ensure_word
  by_cases h : s.known w <;> simp [h, add_word_norm_known_self]

theorem ensure_word_known_mono (pr : String → Vec) (s : SemState) (w u : String)
    (hu : s.known u = true) : (ensure_word pr s w).known u = true := by
  unfold ensure_word
  by_cases h : s.known w <;> simp [h, hu, add_word_norm_known_mono]

/-!
## Path validation (`GameService.validate_path`)
-/

/-- Error and score messages, abstracting the Python f-strings by their
interpolated content (the `:.3f` float rendering is presentation only). -/
inductive Msg where
  | emptyPath
  | tooFewSteps
  | tooManySteps
  | duplicateWords
  | wordNotInDatabase (word : String)
  | notConnected (word1 word2 : String) (similarity : ℚ)
  | mustStartWith (word : String)
  | mustEndWith (word : String)
  | beatNoAlgorithm
  | beat (playerSteps algorithmSteps : Nat)
  | perfect (playerSteps : Nat)
  | extra1 (playerSteps algorithmSteps : Nat)
  | extra2 (playerSteps algorithmSteps : Nat)
  | extra3 (playerSteps algorithmSteps : Nat)
  | completedPath (playerSteps algorithmSteps : Nat)
deriving DecidableEq

/-- `are_connected(word1, word2)` on normalized words. -/
def are_connected_val (pr : String → Vec) (s : SemState) (a b : String) : Bool :=
  decide ((get_similarity_norm pr s a b).1.threshold ≤ (get_similarity_norm pr s a b).2)

/-- The `for i in range(len(path) - 1)` connection loop of
`validate_path`: normalize each consecutive pair, store both if needed,
test `are_connected`, and on the first failure recompute the similarity
for the message. -/
def check_pairs (pr : String → Vec) (s : SemState) : List String → SemState × Option Msg
  | [] => (s, none)
  | [_] => (s, none)
  | a :: b :: rest =>
    let a1 := normalize a
    let b1 := normalize b
    let s2 := ensure_word pr (ensure_word pr s a1) b1
    let rc := get_similarity_norm pr s2 a1 b1
    if rc.1.threshold ≤ rc.2 then check_pairs pr rc.1 (b :: rest)
    else
      let rs := get_similarity_norm pr rc.1 a1 b1
      (rs.1, some (Msg.notConnected a1 b1 rs.2))

/-- `GameService.validate_path`; the returned boolean of the Python pair
is exactly `error.isNone`. -/
def validate_path (pr : String → Vec) (catalog : List String) (s : SemState)
    (path : List String) : SemState × Option Msg :=
  if path.isEmpty then (s, some Msg.emptyPath)
  else if path.length - 1 < 2 then (s, some Msg.tooFewSteps)
  else if path.length - 1 > 6 then (s, some Msg.tooManySteps)
  else if ¬ (path.map to_lower).Nodup then (s, some Msg.duplicateWords)
  else
    match path.find? (fun w => !(db_word_exists catalog w)) with
    | some w => (s, some (Msg.wordNotInDatabase w))
    | none => check_pairs pr s path

theorem ensure_word_of_known (pr : String → Vec) (s : SemState) (w : String)
    (h : s.known w = true) : ensure_word pr s w = s := by
  unfold ensure_word
  simp [h]

theorem get_similarity_norm_state (pr : String → Vec) (s : SemState) (a b : String) :
    (get_similarity_norm pr s a b).1 = ensure_word pr (ensure_word pr s a) b := rfl

theorem get_similarity_norm_val (pr : String → Vec) (s : SemState) (a b : String)
    (hwf : WFState pr s) :
    (get_similarity_norm pr s a b).2 = dot (pr a) (pr b) := by
  have hwf2 : WFState pr (ensure_word pr (ensure_word pr s a) b) :=
    ensure_word_wf pr _ b (ensure_word_wf pr s a hwf)
  have hka : (ensure_word pr (ensure_word pr s a) b).known a = true :=
    ensure_word_known_mono pr _ b a (ensure_word_known_self pr s a)
  have hkb : (ensure_word pr (ensure_word pr s a) b).known b = true :=
    ensure_word_known_self pr _ b
  show dot ((ensure_word pr (ensure_word pr s a) b).findD a)
      ((ensure_word pr (ensure_word pr s a) b).findD b) = dot (pr a) (pr b)
  rw [hwf2.findD_eq hka, hwf2.findD_eq hkb]

theorem get_similarity_norm_wf (pr : String → Vec) (s : SemState) (a b : String)
    (hwf : WFState pr s) : WFState pr (get_similarity_norm pr s a b).1 := by
  rw [get_similarity_norm_state]
  exact ensure_word_wf pr _ b (ensure_word_wf pr s a hwf)

theorem get_similarity_norm_threshold (pr : String → Vec) (s : SemState) (a b : String) :
    (get_similarity_norm pr s a b).1.threshold = s.threshold := by
  rw [get_similarity_norm_state, ensure_word_threshold, ensure_word_threshold]

/-- One unfolding of the connection loop over a well-formed state: the
similarity cache/auto-add steps collapse to `ensure_word` on both words
and the provider dot product. -/
theorem check_pairs_cons (pr : String → Vec) (s : SemState) (a b : String)
    (rest : List String) (hwf : WFState pr s) :
    check_pairs pr s (a :: b :: rest) =
      if s.threshold ≤ dot (pr (normalize a)) (pr (normalize b)) then
        check_pairs pr (ensure_word pr (ensure_word pr s (normalize a)) (normalize b))
          (b :: rest)
      else
        (ensure_word pr (ensure_word pr s (normalize a)) (normalize b),
          some (Msg.notConnected (normalize a) (normalize b)
            (dot (pr (normalize a)) (pr (normalize b))))) := by
  have hwf2 : WFState pr (ensure_word pr (ensure_word pr s (normalize a)) (normalize b)) :=
    ensure_word_wf pr _ _ (ensure_word_wf pr s _ hwf)
  have hka : (ensure_word pr (ensure_word pr s (normalize a)) (normalize b)).known
      (normalize a) = true :=
    ensure_word_known_mono pr _ _ _ (ensure_word_known_self pr s _)
  have hkb : (ensure_word pr (ensure_word pr s (normalize a)) (normalize b)).known
      (normalize b) = true :=
    ensure_word_known_self pr _ _
  have hrc1 : (get_similarity_norm pr
      (ensure_word pr (ensure_word pr s (normalize a)) (normalize b))
      (normalize a) (normalize b)).1 =
      ensure_word pr (ensure_word pr s (normalize a)) (normalize b) := by
    rw [get_similarity_norm_state, ensure_word_of_known pr _ _ hka,
      ensure_word_of_known pr _ _ hkb]
  have hval := get_similarity_norm_val pr
    (ensure_word pr (ensure_word pr s (normalize a)) (normalize b))
    (normalize a) (normalize b) hwf2
  have hth : (ensure_word pr (ensure_word pr s (normalize a)) (normalize b)).threshold
      = s.threshold := by
    rw [ensure_word_threshold, ensure_word_threshold]
  show (if (get_similarity_norm pr
      (ensure_word pr (ensure_word pr s (normalize a)) (normalize b))
      (normalize a) (normalize b)).1.threshold ≤ _ then _ else _) = _
  rw [hrc1, hth, hval]
  by_cases hcon : s.threshold ≤ dot (pr (normalize a)) (pr (normalize b))
  · rw [if_pos hcon, if_pos hcon]
  · rw [if_neg hcon, if_neg hcon, hrc1]

/-- Full characterization of the connection loop over a well-formed state:
the loop succeeds exactly when every consecutive normalized pair meets the
threshold, and aborts at the first failing pair with a message carrying
both normalized words and their similarity. -/
theorem check_pairs_spec (pr : String → Vec) :
    ∀ (path : List String) (s : SemState), WFState pr s →
      WFState pr (check_pairs pr s path).1 ∧
      (check_pairs pr s path).1.threshold = s.threshold ∧
      ((check_pairs pr s path).2 = none ↔
        ∀ pq ∈ path.zip path.tail,
          s.threshold ≤ dot (pr (normalize pq.1)) (pr (normalize pq.2))) ∧
      (∀ x y, (path.zip path.tail).find?
          (fun pq => !(decide (s.threshold ≤
            dot (pr (normalize pq.1)) (pr (normalize pq.2))))) = some (x, y) →
        (check_pairs pr s path).2 =
          some (Msg.notConnected (normalize x) (normalize y)
            (dot (pr (normalize x)) (pr (normalize y))))) := by
  intro path
  induction path with
  | nil =>
    intro s hwf
    exact ⟨hwf, rfl, by simp [check_pairs], by simp⟩
  | cons a tailp ih =>
    intro s hwf
    match tailp with
    | [] =>
      exact ⟨hwf, rfl, by simp [check_pairs], by simp⟩
    | b :: rest =>
      have hwf2 : WFState pr (ensure_word pr (ensure_word pr s (normalize a)) (normalize b)) :=
        ensure_word_wf pr _ _ (ensure_word_wf pr s _ hwf)
      have hth : (ensure_word pr (ensure_word pr s (normalize a)) (normalize b)).threshold
          = s.threshold := by
        rw [ensure_word_threshold, ensure_word_threshold]
      have hstep := check_pairs_cons pr s a b rest hwf
      simp only [List.zip_cons_cons, List.tail_cons]
      by_cases hcon : s.threshold ≤ dot (pr (normalize a)) (pr (normalize b))
      · rw [if_pos hcon] at hstep
        obtain ⟨ihwf, ihth, ihiff, ihfind⟩ :=
          ih (ensure_word pr (ensure_word pr s (normalize a)) (normalize b)) hwf2
        rw [hth] at ihiff ihfind
        simp only [List.tail_cons] at ihiff ihfind
        refine ⟨hstep ▸ ihwf, ?_, ?_, ?_⟩
        · rw [hstep, ihth, hth]
        · rw [hstep, ihiff]
          constructor
          · intro hall pq hpq
            rcases List.mem_cons.mp hpq with rfl | hpq
            · exact hcon
            · exact hall pq hpq
          · intro hall pq hpq
            exact hall pq (List.mem_cons_of_mem _ hpq)
        · intro x y hfind
          rw [List.find?_cons_of_neg _ (by simp [hcon])] at hfind
          rw [hstep]
          exact ihfind x y hfind
      · rw [if_neg hcon] at hstep
        refine ⟨hstep ▸ hwf2, ?_, ?_, ?_⟩
        · rw [hstep, hth]
        · rw [hstep]
          simp only []
          constructor
          · intro hc
            simp at hc
          · intro hall
            exact absurd (hall (a, b) (List.mem_cons_self _ _)) hcon
        · intro x y hfind
          rw [List.find?_cons_of_pos _ (by simp [hcon])] at hfind
          have hxy : a = x ∧ b = y := by
            have := (Option.some.injEq _ _).mp hfind
            exact ⟨congrArg Prod.fst this, congrArg Prod.snd this⟩
          obtain ⟨rfl, rfl⟩ := hxy
          rw [hstep]

/-- Claim C5: `validate_path` succeeds exactly when the steps are within
[2, 6], the lowercased words are pairwise distinct, every word is in the
catalog, and every consecutive normalized pair meets the threshold; when
the only failure is connectivity, it aborts at the first failing pair
with a message carrying both normalized words and their similarity. -/
theorem validate_path_spec (pr : String → Vec) (catalog : List String) (s : SemState)
    (path : List String) (hwf : WFState pr s) :
    ((validate_path pr catalog s path).2 = none ↔
      (2 ≤ path.length - 1 ∧ path.length - 1 ≤ 6 ∧
        (path.map to_lower).Nodup ∧
        (∀ w ∈ path, db_word_exists catalog w = true) ∧
        (∀ pq ∈ path.zip path.tail,
          s.threshold ≤ dot (pr (normalize pq.1)) (pr (normalize pq.2))))) ∧
    (∀ x y, 2 ≤ path.length - 1 → path.length - 1 ≤ 6 →
      (path.map to_lower).Nodup →
      (∀ w ∈ path, db_word_exists catalog w = true) →
      (path.zip path.tail).find?
        (fun pq => !(decide (s.threshold ≤
          dot (pr (normalize pq.1)) (pr (normalize pq.2))))) = some (x, y) →
      (validate_path pr catalog s path).2 =
        some (Msg.notConnected (normalize x) (normalize y)
          (dot (pr (normalize x)) (pr (normalize y))))) := by
  unfold validate_path
  by_cases h1 : path.isEmpty
  · rw [if_pos h1]
    have hlen : path.length = 0 := by
      rw [List.isEmpty_iff] at h1
      simp [h1]
    constructor
    · simp only [hlen]
      constructor
      · intro hc; simp at hc
      · intro hc; omega
    · intro x y hsteps _ _ _ _
      rw [hlen] at hsteps
      omega
  · rw [if_neg h1]
    by_cases h2 : path.length - 1 < 2
    · rw [if_pos h2]
      constructor
      · constructor
        · intro hc; simp at hc
        · intro hc; omega
      · intro x y hsteps _ _ _ _
        omega
    · rw [if_neg h2]
      by_cases h3 : path.length - 1 > 6
      · rw [if_pos h3]
        constructor
        · constructor
          · intro hc; simp at hc
          · intro hc; omega
        · intro x y _ hsteps _ _ _
          omega
      · rw [if_neg h3]
        by_cases h4 : (path.map to_lower).Nodup
        · rw [if_neg (by simpa using h4)]
          cases hfind : path.find? (fun w => !(db_word_exists catalog w)) with
          | some w =>
            have hw_mem : w ∈ path := List.mem_of_find?_eq_some hfind
            have hw_not : ¬ db_word_exists catalog w = true := by
              have := List.find?_some hfind
              simpa using this
            constructor
            · constructor
              · intro hc; simp at hc
              · intro hc
                exact absurd (hc.2.2.2.1 w hw_mem) hw_not
            · intro x y _ _ _ hdb _
              exact absurd (hdb w hw_mem) hw_not
          | none =>
            have hdb : ∀ w ∈ path, db_word_exists catalog w = true := by
              intro w hw
              have := List.find?_eq_none.mp hfind w hw
              simpa using this
            obtain ⟨_, _, hiff, hfirst⟩ := check_pairs_spec pr path s hwf
            constructor
            · rw [hiff]
              constructor
              · intro hpairs
                exact ⟨by omega, by omega, h4, hdb, hpairs⟩
              · intro hc
                exact hc.2.2.2.2
            · intro x y _ _ _ _ hfind2
              exact hfirst x y hfind2
        · rw [if_pos (by simpa using h4)]
          constructor
          · constructor
            · intro hc; simp at hc
            · intro hc
              exact absurd hc.2.2.1 h4
          · intro x y _ _ hnodup _ _
            exact absurd hnodup h4

/-- Provider separating "dog" from the rest. -/
def perp_prov : String → Vec := fun w => if w = "dog" then [0, 1] else [1, 0]

theorem validate_path_spec_witness :
    (((validate_path unit_prov ["cat", "dog", "fox"] empty_state
        ["cat", "dog", "fox"]).2 = none) ∧
      ((validate_path perp_prov ["cat", "dog", "fox"] empty_state
        ["cat", "fox", "dog"]).2 =
        some (Msg.notConnected (normalize "fox") (normalize "dog")
          (dot (perp_prov (normalize "fox")) (perp_prov (normalize "dog")))))) := by
  constructor
  · rw [(validate_path_spec unit_prov ["cat", "dog", "fox"] empty_state
      ["cat", "dog", "fox"] (wf_empty_state unit_prov)).1]
    refine ⟨by decide, by decide, of_decide_eq_true (by with_unfolding_all rfl),
      of_decide_eq_true (by with_unfolding_all rfl),
      of_decide_eq_true (by with_unfolding_all rfl)⟩
  · exact (validate_path_spec perp_prov ["cat", "dog", "fox"] empty_state
      ["cat", "fox", "dog"] (wf_empty_state perp_prov)).2 "fox" "dog"
      (by decide) (by decide)
      (of_decide_eq_true (by with_unfolding_all rfl))
      (of_decide_eq_true (by with_unfolding_all rfl))
      (of_decide_eq_true (by with_unfolding_all rfl))

/-- Claim C10: the duplicate check lowercases only, without stripping:
["cat", " cat", "dog"] repeats "cat" up to surrounding whitespace yet
passes the duplicate check, and because the catalog and connectivity
checks do strip, the whole path validates. -/
theorem validate_path_whitespace_duplicate_accepted :
    to_lower " cat" ≠ to_lower "cat" ∧ normalize " cat" = normalize "cat" ∧
    (validate_path unit_prov ["cat", "dog"] empty_state ["cat", " cat", "dog"]).2 = none :=
  of_decide_eq_true (by with_unfolding_all rfl)

/-!
## Scoring (`GameService.calculate_score`)
-/

/-- `GameService.calculate_score`: reference path first (even for invalid
player paths), then validation, endpoint checks, a second reference
computation, and the diff table. -/
def calculate_score (pr : String → Vec) (catalog : List String) (s : SemState)
    (playerPath : List String) (startWord targetWord : String) :
    SemState × (Nat × Msg × Option (List String)) :=
  let r1 := find_optimal_path pr catalog s startWord targetWord 6
  let rv := validate_path pr catalog r1.1 playerPath
  match rv.2 with
  | some m => (rv.1, (0, m, r1.2))
  | none =>
    if ¬ (normalize (playerPath.headD "") = normalize startWord) then
      (rv.1, (0, Msg.mustStartWith startWord, r1.2))
    else if ¬ (normalize (playerPath.getLastD "") = normalize targetWord) then
      (rv.1, (0, Msg.mustEndWith targetWord, r1.2))
    else
      let r2 := find_optimal_path pr catalog rv.1 startWord targetWord 6
      match r2.2 with
      | none => (r2.1, (120, Msg.beatNoAlgorithm, none))
      | some ap =>
        let ps := playerPath.length - 1
        let algs := ap.length - 1
        let d : Int := (ps : Int) - (algs : Int)
        if d < 0 then (r2.1, (120, Msg.beat ps algs, some ap))
        else if d = 0 then (r2.1, (100, Msg.perfect ps, some ap))
        else if d = 1 then (r2.1, (90, Msg.extra1 ps algs, some ap))
        else if d = 2 then (r2.1, (80, Msg.extra2 ps algs, some ap))
        else if d = 3 then (r2.1, (60, Msg.extra3 ps algs, some ap))
        else (r2.1, (50, Msg.completedPath ps algs, some ap))

/-- Claim C4: an invalid player path scores 0 with the validation message
and the reference path computed before validation; a valid player path
with matching endpoints and an existing reference path scores exactly by
the diff table (diff < 0 gives 120, 0 gives 100, 1 gives 90, 2 gives 80,
3 gives 60, more than 3 gives 50), with that reference returned. -/
theorem calculate_score_spec (pr : String → Vec) (catalog : List String) (s : SemState)
    (playerPath : List String) (startWord targetWord : String) :
    (∀ m, (validate_path pr catalog
        (find_optimal_path pr catalog s startWord targetWord 6).1 playerPath).2 = some m →
      (calculate_score pr catalog s playerPath startWord targetWord).2 =
        (0, m, (find_optimal_path pr catalog s startWord targetWord 6).2)) ∧
    ((validate_path pr catalog
        (find_optimal_path pr catalog s startWord targetWord 6).1 playerPath).2 = none →
      normalize (playerPath.headD "") = normalize startWord →
      normalize (playerPath.getLastD "") = normalize targetWord →
      ∀ ap, (find_optimal_path pr catalog
          (validate_path pr catalog
            (find_optimal_path pr catalog s startWord targetWord 6).1 playerPath).1
          startWord targetWord 6).2 = some ap →
        (calculate_score pr catalog s playerPath startWord targetWord).2.2.2 = some ap ∧
        (((playerPath.length - 1 : Nat) : Int) - ((ap.length - 1 : Nat) : Int) < 0 →
          (calculate_score pr catalog s playerPath startWord targetWord).2.1 = 120) ∧
        (((playerPath.length - 1 : Nat) : Int) - ((ap.length - 1 : Nat) : Int) = 0 →
          (calculate_score pr catalog s playerPath startWord targetWord).2.1 = 100) ∧
        (((playerPath.length - 1 : Nat) : Int) - ((ap.length - 1 : Nat) : Int) = 1 →
          (calculate_score pr catalog s playerPath startWord targetWord).2.1 = 90) ∧
        (((playerPath.length - 1 : Nat) : Int) - ((ap.length - 1 : Nat) : Int) = 2 →
          (calculate_score pr catalog s playerPath startWord targetWord).2.1 = 80) ∧
        (((playerPath.length - 1 : Nat) : Int) - ((ap.length - 1 : Nat) : Int) = 3 →
          (calculate_score pr catalog s playerPath startWord targetWord).2.1 = 60) ∧
        (3 < ((playerPath.length - 1 : Nat) : Int) - ((ap.length - 1 : Nat) : Int) →
          (calculate_score pr catalog s playerPath startWord targetWord).2.1 = 50)) := by
  constructor
  · intro m hm
    unfold calculate_score
    simp only [hm]
  · intro hv hstart hend ap hap
    unfold calculate_score
    simp only [hv, hap]
    rw [if_neg (not_not_intro hstart), if_neg (not_not_intro hend)]
    split_ifs with hd1 hd2 hd3 hd4 hd5 <;>
      refine ⟨rfl, ?_, ?_, ?_, ?_, ?_, ?_⟩ <;> intro hd <;> first | rfl | omega

theorem calculate_score_spec_witness :
    (calculate_score unit_prov ["cat", "feline", "kitten"] empty_state
      ["cat", "feline", "kitten"] "cat" "kitten").2.1 = 90 ∧
    (calculate_score unit_prov ["cat", "feline", "kitten"] empty_state
      ["cat"] "cat" "kitten").2.1 = 0 := by
  constructor
  · have h := (calculate_score_spec unit_prov ["cat", "feline", "kitten"] empty_state
      ["cat", "feline", "kitten"] "cat" "kitten").2
      (of_decide_eq_true (by with_unfolding_all rfl))
      (of_decide_eq_true (by with_unfolding_all rfl))
      (of_decide_eq_true (by with_unfolding_all rfl))
      ["cat", "kitten"]
      (of_decide_eq_true (by with_unfolding_all rfl))
    exact h.2.2.2.1 (by decide)
  · have h := (calculate_score_spec unit_prov ["cat", "feline", "kitten"] empty_state
      ["cat"] "cat" "kitten").1 Msg.tooFewSteps
      (of_decide_eq_true (by with_unfolding_all rfl))
    rw [h]

/-!
## The hint route (`routes.get_hint`)

Request parsing, JSON envelopes and HTTP status codes are serving-layer
glue; the decision logic is embedded with messages abstracted away.
`currentWords` is the already comma-split-and-stripped current path and
`hintLevel` the parsed query parameter.
-/

/-- `word.upper()` (character-wise). -/
def to_upper (w : String) : String := String.mk (w.data.map Char.toUpper)

structure HintData where
  word : Option String
  masked : Option String
  wordLength : Option Nat
  fullyRevealed : Bool
  stepsRemaining : Option Nat
  hintLevel : Nat
deriving DecidableEq

inductive HintResponse where
  | badRequest
  | terminal (hintLevel : Nat)
  | notFound (currentPosition targetWord : String)
  | ok (data : HintData)
deriving DecidableEq

/-- The neighbor fallback scan: skip used words (lowercased), keep the
neighbor with the strictly greatest similarity to the target, starting
from best similarity -1. -/
def best_neighbor (pr : String → Vec) (targetWord : String) (usedWords : List String) :
    List String → SemState → Option String → ℚ → SemState × Option String
  | [], s, best, _ => (s, best)
  | n :: ns, s, best, bestSim =>
    if to_lower n ∈ usedWords then best_neighbor pr targetWord usedWords ns s best bestSim
    else
      let r := get_similarity_norm pr s (normalize n) (normalize targetWord)
      if bestSim < r.2 then best_neighbor pr targetWord usedWords ns r.1 (some n) r.2
      else best_neighbor pr targetWord usedWords ns r.1 best bestSim

/-- The progressive letter reveal: uppercase prefix of `min(hintLevel,
len(word))` letters, underscore per remaining letter; fully revealed when
every letter is shown. -/
def mask_word (w : String) (hintLevel : Nat) : String × Bool :=
  let letters := min hintLevel w.data.length
  if letters ≥ w.data.length then (to_upper w, true)
  else (to_upper (String.mk (w.data.take letters)) ++
    String.mk (List.replicate (w.data.length - letters) (Char.ofNat 95)), false)

/-- The part of `get_hint` from the `find_optimal_path` call on: 404 when
no path of at least two words exists from the current position, first
unused word of the optimal path, neighbor fallback, letter reveal. -/
def hint_search (pr : String → Vec) (catalog : List String) (s : SemState)
    (currentPosition targetWord : String) (usedWords : List String) (hintLevel : Nat) :
    SemState × HintResponse :=
  let r := find_optimal_path pr catalog s currentPosition targetWord 6
  match r.2 with
  | none => (r.1, HintResponse.notFound currentPosition targetWord)
  | some optimal =>
    if optimal.length < 2 then (r.1, HintResponse.notFound currentPosition targetWord)
    else
      let rb :=
        match optimal.tail.find? (fun w => !(decide (to_lower w ∈ usedWords))) with
        | some w => (r.1, some w)
        | none =>
          let cp := normalize currentPosition
          let s2 := ensure_word pr r.1 cp
          best_neighbor pr targetWord usedWords (s2.neighbors_of cp) s2 none (-1)
      match rb.2 with
      | some w =>
        let mw := mask_word w hintLevel
        let hd : HintData :=
          { word := some w, masked := some mw.1, wordLength := some w.data.length,
            fullyRevealed := mw.2, stepsRemaining := some (optimal.length - 1),
            hintLevel := hintLevel }
        (rb.1, HintResponse.ok hd)
      | none =>
        let hd : HintData :=
          { word := none, masked := none, wordLength := none, fullyRevealed := false,
            stepsRemaining := some (optimal.length - 1), hintLevel := hintLevel }
        (rb.1, HintResponse.ok hd)

/-- `routes.get_hint`: missing parameters give a 400; an empty current
path puts the current position at the start word (falling through to the
search); otherwise a last word equal to the target (lowercased) gives the
terminal hint, else the search runs from the last word. -/
def get_hint (pr : String → Vec) (catalog : List String) (s : SemState)
    (startWord targetWord : String) (currentWords : List String) (hintLevel : Nat) :
    SemState × HintResponse :=
  if startWord = "" ∨ targetWord = "" then (s, HintResponse.badRequest)
  else
    let usedWords := to_lower startWord :: currentWords.map to_lower
    if currentWords.isEmpty then
      hint_search pr catalog s startWord targetWord usedWords hintLevel
    else if to_lower (currentWords.getLastD "") = to_lower targetWord then
      (s, HintResponse.terminal hintLevel)
    else
      hint_search pr catalog s (currentWords.getLastD "") targetWord usedWords hintLevel

theorem sem_bfs_path_eq_self (pr : String → Vec) (s : SemState)
    (startWord targetWord : String) (maxSteps : Nat)
    (heq : normalize startWord = normalize targetWord) :
    (sem_bfs_path pr s startWord targetWord maxSteps).2 = some [normalize startWord] := by
  unfold sem_bfs_path
  exact bfs_path_eq_self _ startWord targetWord maxSteps heq

/-- Claim C6, counterexample: with an empty current path and the start
word equal to the target (and in the catalog), get_hint answers with the
404 error result, not the terminal hint. -/
theorem get_hint_start_equals_target_error :
    (get_hint unit_prov ["cat"] empty_state "cat" "cat" [] 1).2 =
      HintResponse.notFound "cat" "cat" :=
  of_decide_eq_true (by with_unfolding_all rfl)

/-- Claim C6 (amended): the terminal hint (success, no suggested word) is
returned exactly when the player has moved and the last word of the
current path equals the target, case-insensitively; when the player has
not yet moved and the start word normalizes equal to the target, get_hint
returns the 404 error result instead. -/
theorem get_hint_terminal_spec :
    (∀ (pr : String → Vec) (catalog : List String) (s : SemState)
      (startWord targetWord : String) (currentWords : List String) (hintLevel : Nat),
      ¬ startWord = "" → ¬ targetWord = "" → ¬ currentWords = [] →
      to_lower (currentWords.getLastD "") = to_lower targetWord →
      (get_hint pr catalog s startWord targetWord currentWords hintLevel).2 =
        HintResponse.terminal hintLevel) ∧
    (∀ (pr : String → Vec) (catalog : List String) (s : SemState)
      (startWord targetWord : String) (hintLevel : Nat),
      ¬ startWord = "" → ¬ targetWord = "" →
      normalize startWord = normalize targetWord →
      (get_hint pr catalog s startWord targetWord [] hintLevel).2 =
        HintResponse.notFound startWord targetWord) := by
  constructor
  · intro pr catalog s startWord targetWord currentWords hintLevel hs ht hne hlast
    unfold get_hint
    rw [if_neg (not_or.mpr ⟨hs, ht⟩)]
    rw [if_neg (by simp [List.isEmpty_iff, hne])]
    rw [if_pos hlast]
  · intro pr catalog s startWord targetWord hintLevel hs ht heq
    unfold get_hint
    rw [if_neg (not_or.mpr ⟨hs, ht⟩)]
    rw [if_pos (by simp)]
    unfold hint_search
    have hdb : db_word_exists catalog targetWord = db_word_exists catalog startWord := by
      unfold db_word_exists
      rw [heq]
    unfold find_optimal_path
    by_cases hstartdb : db_word_exists catalog startWord
    · rw [if_neg (not_not_intro hstartdb), hdb, if_neg (not_not_intro hstartdb)]
      have hsem : ∀ s0 : SemState,
          (sem_bfs_path pr s0 startWord targetWord 6).2 = some [normalize startWord] :=
        fun s0 => sem_bfs_path_eq_self pr s0 startWord targetWord 6 heq
      simp only [hsem]
      simp
    · rw [if_pos hstartdb]

theorem get_hint_terminal_spec_witness :
    (get_hint unit_prov ["cat"] empty_state "cat" "dog" ["dog"] 2).2 =
        HintResponse.terminal 2 ∧
    (get_hint unit_prov ["cat"] empty_state "kitty" "kitty" [] 1).2 =
        HintResponse.notFound "kitty" "kitty" := by
  constructor
  · exact get_hint_terminal_spec.1 unit_prov ["cat"] empty_state "cat" "dog" ["dog"] 2
      (by decide) (by decide) (by decide) (by decide)
  · exact get_hint_terminal_spec.2 unit_prov ["cat"] empty_state "kitty" "kitty" 1
      (by decide) (by decide) rfl

end SixDeg
